import Mathlib

/-!
Verification of `guild_tracker.py` (sf-guild-tracker).

A shallow embedding in Lean 4 of the time-series aggregation engine of
`src/guild_tracker.py`: ledger rows, window selection, the completeness
filter, trend computation, 7-day projection, the append/read ledger
operations, and the acquisition error path.

Conventions of the embedding:
* A CSV row as produced by `csv.DictReader` is a record of optional string
  fields (`none` models a missing field / `None`).
* Python machine-level effects (file existence) are modelled by an
  `Option (List Row)` ledger state: `none` = the CSV file does not exist.
* Python's `int(...)` string coercion is modelled by `pyInt` (optional
  sign and decimal digits after stripping surrounding whitespace; digit
  grouping underscores are not modelled — no claim depends on them).
* Python's stable `sorted(key=...)` is modelled by a stable insertion
  sort `insSort`; stable sorting by a key is a unique function, so any
  stable sort is the same function as CPython's Timsort.
* Python's tail slice `lst[-n:]` is modelled by `pySliceTail`, including
  its behaviour at `n = 0` (the whole list) and `n < 0` (drop `-n`).
-/

/-- Digits of a Python int literal: all characters are ASCII digits and
there is at least one. -/
def digitsVal : List Char → Option Nat
  | [] => none
  | cs => if cs.all Char.isDigit
          then some (cs.foldl (fun n c => n * 10 + (c.toNat - 48)) 0)
          else none

/-- Python `int(s)` on a string: strip surrounding whitespace, optional
sign, then decimal digits; `none` when the coercion raises `ValueError`. -/
def pyInt (s : String) : Option Int :=
  match ((s.data.dropWhile Char.isWhitespace).reverse.dropWhile
      Char.isWhitespace).reverse with
  | '+' :: rest => (digitsVal rest).map Int.ofNat
  | '-' :: rest => (digitsVal rest).map (fun n => -(n : Int))
  | cs => (digitsVal cs).map Int.ofNat

/-- A ledger row as seen through `csv.DictReader`: each field is an
optional string (`none` = the column is absent). -/
structure Row where
  date : Option String
  name : Option String
  level : Option String
deriving DecidableEq

/-- Python tail slice `l[-size:]` for an `int` size: for `size > 0` the
last `min size (length l)` elements; for `size = 0` the whole list
(`l[-0:] = l[0:]`); for `size < 0` the list with its first `-size`
elements dropped. -/
def pySliceTail (l : List α) (size : Int) : List α :=
  if 0 < size then l.drop (l.length - size.toNat)
  else l.drop (-size).toNat

/-- Lexicographic-by-code-point `≤` on character lists, the order Python
uses to compare strings. -/
def charsLe : List Char → List Char → Bool
  | [], _ => true
  | _ :: _, [] => false
  | a :: as, b :: bs =>
    if a.toNat < b.toNat then true
    else if b.toNat < a.toNat then false
    else charsLe as bs

/-- String order used by Python's `sorted` on strings (lexicographic by
code point). -/
def strLe (a b : String) : Bool := charsLe a.data b.data

/-- Strict string order: `≤` and not equal. -/
def strLt (a b : String) : Prop := strLe a b = true ∧ a ≠ b

/-- Insert into a sorted list, before the first element not
`le`-below the inserted one (the insertion step of a stable sort). -/
def insSorted (le : α → α → Bool) (a : α) : List α → List α
  | [] => [a]
  | b :: bs => if le a b then a :: b :: bs else b :: insSorted le a bs

/-- Stable insertion sort; models Python's stable `sorted`. -/
def insSort (le : α → α → Bool) : List α → List α
  | [] => []
  | a :: l => insSorted le a (insSort le l)

/-- Distinct non-empty dates of the ledger in ascending order:
`sorted({row["date"] for row in rows if row.get("date")})`. -/
def sortedDistinctDates (rows : List Row) : List String :=
  insSort strLe (rows.filterMap (fun r =>
    match r.date with
    | some d => if d = "" then none else some d
    | none => none)).dedup

/-- Window selection of `analyze_last_n_days` / `project_levels_next_7_days`:
`window_dates = dates[-n_days:]` over the sorted distinct dates. -/
def selectWindow (rows : List Row) (size : Int) : List String :=
  pySliceTail (sortedDistinctDates rows) size

/-- One iteration of the `_build_levels_by_key` loop: the `(date, name)`
key and parsed level a row contributes, or `none` when the row is
skipped (date outside the window, level not an int, name falsy). -/
def rowEntry (window : List String) (r : Row) : Option ((String × String) × Int) :=
  match r.date with
  | none => none
  | some d =>
    if d ∈ window then
      match r.level.bind pyInt with
      | none => none
      | some lvl =>
        match r.name with
        | none => none
        | some nm => if nm = "" then none else some ((d, nm), lvl)
    else none

/-- All key/level contributions of the ledger rows, in row order. -/
def keyEntries (rows : List Row) (window : List String) :
    List ((String × String) × Int) :=
  rows.filterMap (rowEntry window)

/-- The dict `levels_by_key` built by `_build_levels_by_key`, as a lookup
function: the value of the last row writing the key wins. -/
def levelsByKey (rows : List Row) (window : List String)
    (k : String × String) : Option Int :=
  ((keyEntries rows window).reverse.find? (fun e => decide (e.1 = k))).map (·.2)

/-- Python `sorted({name for (_d, name) in levels_by_key.keys()})`. -/
def playerNames (rows : List Row) (window : List String) : List String :=
  insSort strLe ((keyEntries rows window).map (fun e => e.1.2)).dedup

/-- Collects a `some` list when every element is `some`; `none` otherwise. -/
def allSome : List (Option α) → Option (List α)
  | [] => some []
  | none :: _ => none
  | some a :: l => (allSome l).map (a :: ·)

/-- Models `_players_with_full_window`: for each player name in lexicographic
order, the per-window-date level sequence, keeping only players with a
level on every window date. -/
def playersWithFullWindow (rows : List Row) (window : List String) :
    List (String × List Int) :=
  (playerNames rows window).filterMap (fun nm =>
    (allSome (window.map (fun d => levelsByKey rows window (d, nm)))).map
      (fun lvls => (nm, lvls)))

/-- A row of the trend report built by `analyze_last_n_days`. -/
structure TrendRecord where
  name : String
  «from» : Int
  «to» : Int
  delta : Int
deriving DecidableEq

/-- The `changes` list of `analyze_last_n_days`: oldest level, newest
level and their difference for each complete player. -/
def trendChanges (rows : List Row) (window : List String) : List TrendRecord :=
  (playersWithFullWindow rows window).map (fun p =>
    { name := p.1
      «from» := p.2.headD 0
      «to» := p.2.getLastD 0
      delta := p.2.getLastD 0 - p.2.headD 0 })

/-- Python `sorted(changes, key=lambda c: c["delta"])`. -/
def sortByDelta (l : List TrendRecord) : List TrendRecord :=
  insSort (fun a b => decide (a.delta ≤ b.delta)) l

/-- Outcome of `analyze_last_n_days` (each constructor is one of the
early-return prints / the final report). -/
inductive AnalyzeResult where
  | noData : AnalyzeResult
  | insufficientHistory : AnalyzeResult
  | noCompletePlayers (windowDates : List String) : AnalyzeResult
  | report (windowDates : List String)
      (worst best : List TrendRecord) : AnalyzeResult
deriving DecidableEq

/-- Models `analyze_last_n_days(n_days, top_n)` as a function of the ledger
rows (the Python locals `dates`, `window_dates`, `changes` are inlined):
`worst = changes_sorted[:top_n]`,
`best = list(reversed(changes_sorted))[:top_n]`. -/
def analyze_last_n_days (rows : List Row) (n_days : Int) (top_n : Nat) :
    AnalyzeResult :=
  if rows.isEmpty then .noData
  else if (sortedDistinctDates rows).length < 2 then .insufficientHistory
  else if (trendChanges rows (selectWindow rows n_days)).isEmpty then
    .noCompletePlayers (selectWindow rows n_days)
  else .report (selectWindow rows n_days)
    ((sortByDelta (trendChanges rows (selectWindow rows n_days))).take top_n)
    ((sortByDelta (trendChanges rows (selectWindow rows n_days))).reverse.take top_n)

/-- A row of the projection report of `project_levels_next_7_days`. -/
structure ProjRecord where
  name : String
  «from» : Int
  current : Int
  delta : Int
  projected : Int
deriving DecidableEq

/-- The `projections` list of `project_levels_next_7_days`. -/
def projRecords (rows : List Row) (window : List String) : List ProjRecord :=
  (playersWithFullWindow rows window).map (fun p =>
    { name := p.1
      «from» := p.2.headD 0
      current := p.2.getLastD 0
      delta := p.2.getLastD 0 - p.2.headD 0
      projected := p.2.getLastD 0 + (p.2.getLastD 0 - p.2.headD 0) })

/-- Python `sorted(projections, key=lambda p: p["projected"])`. -/
def sortByProjected (l : List ProjRecord) : List ProjRecord :=
  insSort (fun a b => decide (a.projected ≤ b.projected)) l

/-- Outcome of `project_levels_next_7_days`. -/
inductive ProjectResult where
  | noData : ProjectResult
  | insufficientHistory : ProjectResult
  | noCompletePlayers (windowDates : List String) : ProjectResult
  | report (windowDates : List String) (recs : List ProjRecord) : ProjectResult
deriving DecidableEq

/-- Models `project_levels_next_7_days(top_n)` as a function of the ledger rows
(the Python locals `dates`, `window_dates`, `projections` are inlined). -/
def project_levels_next_7_days (rows : List Row) (top_n : Nat) :
    ProjectResult :=
  if rows.isEmpty then .noData
  else if (sortedDistinctDates rows).length < 7 then .insufficientHistory
  else if (projRecords rows (selectWindow rows 7)).isEmpty then
    .noCompletePlayers (selectWindow rows 7)
  else .report (selectWindow rows 7)
    ((sortByProjected (projRecords rows (selectWindow rows 7))).take top_n)

/-- An observation produced by `fetch_levels`: `{"name": ..., "level": int}`. -/
structure Obs where
  name : String
  level : Int
deriving DecidableEq

/-- The CSV row `writer.writerow([today, m["name"], m["level"]])`
appends for one observation. -/
def obsRow (today : String) (m : Obs) : Row :=
  { date := some today, name := some m.name, level := some (toString m.level) }

/-- Models `append_today(levels)` on the ledger state (`none` = no CSV file):
no-op when `levels` is empty, otherwise creates the file if needed and
appends one row per observation tagged with today's date. -/
def append_today (ledger : Option (List Row)) (today : String)
    (levels : List Obs) : Option (List Row) :=
  if levels.isEmpty then ledger
  else some (ledger.getD [] ++ levels.map (obsRow today))

/-- Models `_load_csv_rows()`: every data row of the CSV, or `[]` when the file
does not exist. -/
def readAll (ledger : Option (List Row)) : List Row := ledger.getD []

/-! ## Acquisition model -/

/-- A JSON scalar as relevant to `fetch_levels`. -/
inductive JVal where
  | jint (n : Int)
  | jstr (s : String)
  | jnull : JVal
deriving DecidableEq

/-- Python `int(level)` on a decoded JSON value: ints pass through,
strings parse as decimal ints, `null` (and other non-coercible shapes)
raise and are skipped. (JSON floats, which Python would truncate, do not
occur in the fetcher contract and are not modelled.) -/
def jToInt : JVal → Option Int
  | .jint n => some n
  | .jstr s => pyInt s
  | .jnull => none

/-- One item of the decoded JSON array, read through `item.get`. -/
structure JItem where
  name : Option String
  level : Option JVal
deriving DecidableEq

/-- Classified fatal errors of `fetch_levels` (`FileNotFoundError`,
`RuntimeError`, `ValueError`). -/
inductive FetchErr where
  | fileNotFound (msg : String)
  | runtimeError (msg : String)
  | valueError (msg : String)
deriving DecidableEq

/-- Models `fetch_levels()` as a function of the subprocess outcome: whether the
binary exists, its exit code, its captured stdout/stderr, and the result
of `json.loads(stdout)` (`none` = `JSONDecodeError`; the JSON decoder
itself is not modelled, and the `ValueError` message carries the raw
stdout as in the source). -/
def fetch_levels (binaryExists : Bool) (exitCode : Int)
    (stdout stderr : String) (parsed : Option (List JItem)) :
    Except FetchErr (List Obs) :=
  if binaryExists = false then
    .error (.fileNotFound "Rust-binary findes ikke")
  else if exitCode ≠ 0 then
    .error (.runtimeError ("Rust-program fejlede.\nExit code: " ++
      toString exitCode ++ "\nSTDOUT:\n" ++ stdout ++ "\nSTDERR:\n" ++ stderr))
  else
    match parsed with
    | none => .error (.valueError
        ("Kunne ikke parse JSON fra Rust-programmet:\nOutput var:\n" ++ stdout))
    | some data => .ok (data.filterMap (fun item =>
        match item.name, item.level with
        | some nm, some lv => (jToInt lv).map (fun n => { name := nm, level := n })
        | _, _ => none))

/-- Models `main()` on the ledger state: a fetch error is printed and the run
returns with the ledger untouched (`true` flags the aborted run);
otherwise today's levels are appended and the analyses run. -/
def pymain (ledger : Option (List Row)) (today : String)
    (fetched : Except FetchErr (List Obs)) : Option (List Row) × Bool :=
  match fetched with
  | .error _ => (ledger, true)
  | .ok levels => (append_today ledger today levels, false)

/-! ## Concrete ledgers for witnesses and counterexamples -/

/-- The `best` list of a trend report (`[]` for the advisory outcomes). -/
def bestOf : AnalyzeResult → List TrendRecord
  | .report _ _ best => best
  | _ => []

/-- Two dates, players `A` and `B` both gaining 5 levels (a delta tie). -/
def exRowsAB : List Row :=
  [ ⟨some "1", some "A", some "10"⟩, ⟨some "1", some "B", some "20"⟩,
    ⟨some "2", some "A", some "15"⟩, ⟨some "2", some "B", some "25"⟩ ]

/-- A ledger with a single recorded date. -/
def exRowsOne : List Row := [⟨some "1", some "A", some "10"⟩]

/-- Seven dates `"1"`–`"7"`: `A` complete (levels 10–16), `B` missing
date `"3"`, plus a row with an unparsable level, one with an empty name
and one with an empty date. -/
def exRows7 : List Row :=
  [ ⟨some "1", some "A", some "10"⟩, ⟨some "2", some "A", some "11"⟩,
    ⟨some "3", some "A", some "12"⟩, ⟨some "4", some "A", some "13"⟩,
    ⟨some "5", some "A", some "14"⟩, ⟨some "6", some "A", some "15"⟩,
    ⟨some "7", some "A", some "16"⟩,
    ⟨some "1", some "B", some "20"⟩, ⟨some "2", some "B", some "21"⟩,
    ⟨some "4", some "B", some "23"⟩, ⟨some "5", some "B", some "24"⟩,
    ⟨some "6", some "B", some "25"⟩, ⟨some "7", some "B", some "26"⟩,
    ⟨some "2", some "C", some "x5"⟩, ⟨some "1", some "", some "99"⟩,
    ⟨some "", some "C", some "5"⟩ ]

/-! ## Order lemmas for the code-point string order -/

theorem charsLe_refl : ∀ l : List Char, charsLe l l = true
  | [] => rfl
  | a :: as => by simp [charsLe, charsLe_refl as]

theorem charsLe_cons_iff (a b : Char) (as bs : List Char) :
    charsLe (a :: as) (b :: bs) = true ↔
      a.toNat < b.toNat ∨ (a.toNat = b.toNat ∧ charsLe as bs = true) := by
  simp only [charsLe]
  by_cases h1 : a.toNat < b.toNat
  · simp [h1]
  · by_cases h2 : b.toNat < a.toNat
    · simp [h1, h2]; omega
    · have h3 : a.toNat = b.toNat := by omega
      simp [h1, h2, h3]

theorem charsLe_total : ∀ x y : List Char, charsLe x y = true ∨ charsLe y x = true
  | [], _ => Or.inl rfl
  | _ :: _, [] => Or.inr rfl
  | a :: as, b :: bs => by
    rcases Nat.lt_trichotomy a.toNat b.toNat with h | h | h
    · exact Or.inl ((charsLe_cons_iff _ _ _ _).2 (Or.inl h))
    · rcases charsLe_total as bs with ih | ih
      · exact Or.inl ((charsLe_cons_iff _ _ _ _).2 (Or.inr ⟨h, ih⟩))
      · exact Or.inr ((charsLe_cons_iff _ _ _ _).2 (Or.inr ⟨h.symm, ih⟩))
    · exact Or.inr ((charsLe_cons_iff _ _ _ _).2 (Or.inl h))

theorem charsLe_trans : ∀ x y z : List Char,
    charsLe x y = true → charsLe y z = true → charsLe x z = true
  | [], _, z => fun _ _ => by cases z <;> rfl
  | _ :: _, [], _ => fun h _ => by simp [charsLe] at h
  | _ :: _, _ :: _, [] => fun _ h => by simp [charsLe] at h
  | a :: as, b :: bs, c :: cs => fun h1 h2 => by
    rw [charsLe_cons_iff] at h1 h2 ⊢
    rcases h1 with h1 | ⟨h1, h1'⟩ <;> rcases h2 with h2 | ⟨h2, h2'⟩
    · exact Or.inl (by omega)
    · exact Or.inl (by omega)
    · exact Or.inl (by omega)
    · exact Or.inr ⟨by omega, charsLe_trans as bs cs h1' h2'⟩

theorem strLe_refl (a : String) : strLe a a = true := charsLe_refl a.data

theorem strLe_total (a b : String) : strLe a b = true ∨ strLe b a = true :=
  charsLe_total a.data b.data

theorem strLe_trans {a b c : String} (h1 : strLe a b = true)
    (h2 : strLe b c = true) : strLe a c = true :=
  charsLe_trans a.data b.data c.data h1 h2

theorem strLt_of_le_of_not_ge {a b : String} (h1 : strLe a b = true)
    (h2 : strLe b a = true → a ≠ b) : strLt a b := by
  refine ⟨h1, ?_⟩
  by_cases hba : strLe b a = true
  · exact h2 hba
  · rintro rfl
    exact hba (strLe_refl a)

/-! ## Stable insertion sort lemmas -/

theorem insSorted_perm (le : α → α → Bool) (a : α) :
    ∀ l : List α, (insSorted le a l).Perm (a :: l)
  | [] => List.Perm.refl _
  | b :: bs => by
    simp only [insSorted]
    split
    · exact List.Perm.refl _
    · exact ((insSorted_perm le a bs).cons b).trans (List.Perm.swap a b bs)

theorem insSort_perm (le : α → α → Bool) :
    ∀ l : List α, (insSort le l).Perm l
  | [] => List.Perm.refl _
  | a :: l => (insSorted_perm le a (insSort le l)).trans ((insSort_perm le l).cons a)

theorem mem_insSort {le : α → α → Bool} {l : List α} {x : α} :
    x ∈ insSort le l ↔ x ∈ l :=
  (insSort_perm le l).mem_iff

/-- Stability of the insertion step: inserting `a` into a list every
member of which it relates to by `r` preserves the combined
"sorted-by-`le`, `r` among `le`-ties" pairwise invariant. -/
theorem pairwise_insSorted {le : α → α → Bool} {r : α → α → Prop}
    (htot : ∀ x y, le x y = true ∨ le y x = true)
    (htrans : ∀ x y z, le x y = true → le y z = true → le x z = true)
    (a : α) :
    ∀ m : List α,
      m.Pairwise (fun x y => le x y = true ∧ (le y x = true → r x y)) →
      (∀ b ∈ m, r a b) →
      (insSorted le a m).Pairwise
        (fun x y => le x y = true ∧ (le y x = true → r x y))
  | [], _, _ => List.pairwise_singleton _ a
  | b :: bs, hm, ha => by
    rcases List.pairwise_cons.1 hm with ⟨hb, hbs⟩
    simp only [insSorted]
    split
    · rename_i hab
      refine List.pairwise_cons.2 ⟨?_, hm⟩
      intro c hc
      rcases hc with _ | hc
      · exact ⟨hab, fun _ => ha b (List.mem_cons_self b bs)⟩
      · rename_i hc
        refine ⟨htrans a b c hab (hb c hc).1, fun _ => ha c (List.mem_cons_of_mem b hc)⟩
    · rename_i hab
      have hba : le b a = true := by
        rcases htot a b with h | h
        · exact absurd h hab
        · exact h
      refine List.pairwise_cons.2 ⟨?_, ?_⟩
      · intro c hc
        rcases List.mem_cons.1 ((insSorted_perm le a bs).mem_iff.1 hc) with rfl | hc
        · exact ⟨hba, fun h => absurd h hab⟩
        · exact hb c hc
      · exact pairwise_insSorted htot htrans a bs hbs
          (fun c hc => ha c (List.mem_cons_of_mem b hc))

/-- Stability of the sort: stably sorting by `le` a list that is
`Pairwise r` yields a list sorted by `le` in which `le`-ties are still
ordered by `r`. -/
theorem pairwise_insSort {le : α → α → Bool} {r : α → α → Prop}
    (htot : ∀ x y, le x y = true ∨ le y x = true)
    (htrans : ∀ x y z, le x y = true → le y z = true → le x z = true) :
    ∀ l : List α, l.Pairwise r →
      (insSort le l).Pairwise
        (fun x y => le x y = true ∧ (le y x = true → r x y))
  | [], _ => List.Pairwise.nil
  | a :: l, hl => by
    rcases List.pairwise_cons.1 hl with ⟨ha, hl'⟩
    exact pairwise_insSorted htot htrans a (insSort le l)
      (pairwise_insSort htot htrans l hl')
      (fun b hb => ha b (mem_insSort.1 hb))

/-! ## Lemmas about `allSome`, `pySliceTail` and the data pipeline -/

theorem allSome_eq_some_iff : ∀ {l : List (Option α)} {m : List α},
    allSome l = some m ↔ l = m.map some
  | [], m => by cases m <;> simp [allSome]
  | none :: t, m => by cases m <;> simp [allSome]
  | some a :: t, m => by
    cases m with
    | nil => simp [allSome]
    | cons b m' =>
      simp only [allSome, Option.map_eq_some', List.map_cons, List.cons.injEq,
        Option.some.injEq, allSome_eq_some_iff (l := t) (m := m')]
      constructor
      · rintro ⟨x, hx, rfl, rfl⟩
        exact ⟨rfl, (allSome_eq_some_iff (l := t) (m := x)).1 hx⟩
      · rintro ⟨rfl, ht⟩
        exact ⟨m', (allSome_eq_some_iff (l := t) (m := m')).2 ht, rfl, rfl⟩

theorem allSome_isSome_iff : ∀ {l : List (Option α)},
    (allSome l).isSome ↔ ∀ x ∈ l, x.isSome
  | [] => by simp [allSome]
  | none :: t => by simp [allSome]
  | some a :: t => by
    simp [allSome, allSome_isSome_iff (l := t)]

theorem pySliceTail_suffix (l : List α) (size : Int) :
    pySliceTail l size <:+ l := by
  unfold pySliceTail
  split <;> exact List.drop_suffix _ _

theorem pySliceTail_length_le (l : List α) (size : Int) (h : 0 < size) :
    ((pySliceTail l size).length : Int) ≤ size := by
  unfold pySliceTail
  rw [if_pos h, List.length_drop]
  omega

theorem pySliceTail_nonpos (l : List α) (size : Int) (h : size ≤ 0) :
    pySliceTail l size = l.drop (-size).toNat := by
  unfold pySliceTail
  rw [if_neg (by omega)]

theorem pySliceTail_length_pos (l : List α) (size : Int) (h : 0 < size) :
    ((pySliceTail l size).length : Int) = min size (l.length : Int) := by
  unfold pySliceTail
  rw [if_pos h, List.length_drop]
  omega

theorem pySliceTail_all_of_le (l : List α) (size : Int)
    (h : (l.length : Int) ≤ size) : pySliceTail l size = l := by
  unfold pySliceTail
  split
  · rename_i hpos
    have h0 : l.length - size.toNat = 0 := by omega
    rw [h0, List.drop_zero]
  · rename_i hpos
    have h0 : l.length = 0 := by omega
    rw [List.length_eq_zero.1 h0]
    exact List.drop_nil

theorem pySliceTail_length_of_le (l : List α) (size : Int) (h : 0 < size)
    (hl : size.toNat ≤ l.length) : (pySliceTail l size).length = size.toNat := by
  unfold pySliceTail
  rw [if_pos h, List.length_drop]
  omega

theorem sortedDistinctDates_pairwise (rows : List Row) :
    (sortedDistinctDates rows).Pairwise strLt := by
  have h := @pairwise_insSort _ strLe (fun a b => a ≠ b)
    strLe_total (fun _ _ _ => strLe_trans)
    ((rows.filterMap fun r =>
      match r.date with
      | some d => if d = "" then none else some d
      | none => none)).dedup (List.nodup_dedup _)
  exact h.imp (fun hxy => strLt_of_le_of_not_ge hxy.1 hxy.2)

theorem mem_sortedDistinctDates {rows : List Row} {d : String} :
    d ∈ sortedDistinctDates rows ↔ (∃ r ∈ rows, r.date = some d) ∧ d ≠ "" := by
  unfold sortedDistinctDates
  rw [mem_insSort, List.mem_dedup, List.mem_filterMap]
  constructor
  · rintro ⟨r, hr, he⟩
    split at he
    · rename_i d' hd
      split at he
      · cases he
      · rename_i hne
        cases he
        exact ⟨⟨r, hr, hd⟩, hne⟩
    · cases he
  · rintro ⟨⟨r, hr, hd⟩, hne⟩
    refine ⟨r, hr, ?_⟩
    rw [hd]
    simp [hne]

theorem rowEntry_mem_inv {window : List String} {r : Row}
    {e : (String × String) × Int} (he : rowEntry window r = some e) :
    e.1.1 ∈ window ∧ e.1.2 ≠ "" ∧ r.date = some e.1.1 ∧
      r.name = some e.1.2 ∧ r.level.bind pyInt = some e.2 := by
  unfold rowEntry at he
  split at he
  · cases he
  · rename_i d hd
    split at he
    · rename_i hw
      split at he
      · cases he
      · rename_i lvl hl
        split at he
        · cases he
        · rename_i nm hn
          split at he
          · cases he
          · rename_i hne
            cases he
            exact ⟨hw, hne, hd, hn, hl⟩
    · cases he

theorem keyEntries_mem_inv {rows : List Row} {window : List String}
    {e : (String × String) × Int} (he : e ∈ keyEntries rows window) :
    e.1.1 ∈ window ∧ e.1.2 ≠ "" := by
  rcases List.mem_filterMap.1 he with ⟨r, _, hr⟩
  exact ⟨(rowEntry_mem_inv hr).1, (rowEntry_mem_inv hr).2.1⟩

theorem levelsByKey_isSome_iff {rows : List Row} {window : List String}
    {k : String × String} :
    (levelsByKey rows window k).isSome ↔
      ∃ e ∈ keyEntries rows window, e.1 = k := by
  unfold levelsByKey
  simp [List.find?_isSome]

theorem mem_playerNames {rows : List Row} {window : List String} {nm : String} :
    nm ∈ playerNames rows window ↔
      ∃ e ∈ keyEntries rows window, e.1.2 = nm := by
  unfold playerNames
  rw [mem_insSort, List.mem_dedup, List.mem_map]

theorem playerNames_pairwise (rows : List Row) (window : List String) :
    (playerNames rows window).Pairwise strLt := by
  have h := @pairwise_insSort _ strLe (fun a b => a ≠ b)
    strLe_total (fun _ _ _ => strLe_trans)
    (((keyEntries rows window).map (fun e => e.1.2)).dedup) (List.nodup_dedup _)
  exact h.imp (fun hxy => strLt_of_le_of_not_ge hxy.1 hxy.2)

theorem mem_playersWithFullWindow {rows : List Row} {window : List String}
    {p : String × List Int} :
    p ∈ playersWithFullWindow rows window ↔
      p.1 ∈ playerNames rows window ∧
        allSome (window.map (fun d => levelsByKey rows window (d, p.1))) =
          some p.2 := by
  obtain ⟨nm, lvls⟩ := p
  unfold playersWithFullWindow
  rw [List.mem_filterMap]
  constructor
  · rintro ⟨x, hx, hf⟩
    rcases Option.map_eq_some'.1 hf with ⟨m, hm, he⟩
    cases he
    exact ⟨hx, hm⟩
  · rintro ⟨hnm, hl⟩
    exact ⟨nm, hnm, by rw [hl]; rfl⟩

theorem playersWithFullWindow_pairwise (rows : List Row) (window : List String) :
    (playersWithFullWindow rows window).Pairwise (fun p q => strLt p.1 q.1) := by
  unfold playersWithFullWindow
  rw [List.pairwise_filterMap]
  refine (playerNames_pairwise rows window).imp ?_
  intro a b hab x hx y hy
  rcases Option.map_eq_some'.1 hx with ⟨_, _, hxe⟩
  rcases Option.map_eq_some'.1 hy with ⟨_, _, hye⟩
  cases hxe; cases hye
  exact hab

theorem playersWithFullWindow_levels {rows : List Row} {window : List String}
    {p : String × List Int} (hp : p ∈ playersWithFullWindow rows window) :
    window.map (fun d => levelsByKey rows window (d, p.1)) = p.2.map some :=
  allSome_eq_some_iff.1 (mem_playersWithFullWindow.1 hp).2

theorem playersWithFullWindow_window_ne_nil {rows : List Row}
    {window : List String} {p : String × List Int}
    (hp : p ∈ playersWithFullWindow rows window) : window ≠ [] := by
  rcases mem_playerNames.1 (mem_playersWithFullWindow.1 hp).1 with ⟨e, he, _⟩
  intro hnil
  subst hnil
  exact absurd (keyEntries_mem_inv he).1 (List.not_mem_nil _)

theorem mem_trendChanges {rows : List Row} {window : List String}
    {c : TrendRecord} :
    c ∈ trendChanges rows window ↔
      ∃ p ∈ playersWithFullWindow rows window,
        c = { name := p.1, «from» := p.2.headD 0, «to» := p.2.getLastD 0,
              delta := p.2.getLastD 0 - p.2.headD 0 } := by
  unfold trendChanges
  rw [List.mem_map]
  constructor
  · rintro ⟨p, hp, rfl⟩
    exact ⟨p, hp, rfl⟩
  · rintro ⟨p, hp, rfl⟩
    exact ⟨p, hp, rfl⟩

theorem mem_projRecords {rows : List Row} {window : List String}
    {q : ProjRecord} :
    q ∈ projRecords rows window ↔
      ∃ p ∈ playersWithFullWindow rows window,
        q = { name := p.1, «from» := p.2.headD 0, current := p.2.getLastD 0,
              delta := p.2.getLastD 0 - p.2.headD 0,
              projected := p.2.getLastD 0 + (p.2.getLastD 0 - p.2.headD 0) } := by
  unfold projRecords
  rw [List.mem_map]
  constructor
  · rintro ⟨p, hp, rfl⟩
    exact ⟨p, hp, rfl⟩
  · rintro ⟨p, hp, rfl⟩
    exact ⟨p, hp, rfl⟩

theorem map_eq_map_some_ends {g : String → Option Int} {w : List String}
    {m : List Int} (h : w.map g = m.map some) (hw : w ≠ []) :
    g (w.head hw) = some (m.headD 0) ∧ g (w.getLast hw) = some (m.getLastD 0) := by
  have hm : m ≠ [] := by
    rintro rfl
    rw [List.map_nil, List.map_eq_nil_iff] at h
    exact hw h
  constructor
  · have h1 := congrArg List.head? h
    rw [List.head?_map, List.head?_map, List.head?_eq_head hw,
      List.head?_eq_head hm] at h1
    simp only [Option.map_some'] at h1
    rw [List.headD_eq_head?_getD, List.head?_eq_head hm]
    exact Option.some.inj h1
  · have h1 := congrArg List.getLast? h
    rw [List.getLast?_map, List.getLast?_map, List.getLast?_eq_getLast w hw,
      List.getLast?_eq_getLast m hm] at h1
    simp only [Option.map_some'] at h1
    rw [List.getLastD_eq_getLast?, List.getLast?_eq_getLast m hm]
    exact Option.some.inj h1

theorem analyze_report_inv {rows : List Row} {n_days : Int} {top_n : Nat}
    {w : List String} {worst best : List TrendRecord}
    (h : analyze_last_n_days rows n_days top_n = .report w worst best) :
    w = selectWindow rows n_days ∧
    2 ≤ (sortedDistinctDates rows).length ∧
    worst = (sortByDelta (trendChanges rows w)).take top_n ∧
    best = (sortByDelta (trendChanges rows w)).reverse.take top_n ∧
    trendChanges rows w ≠ [] := by
  unfold analyze_last_n_days at h
  split at h
  · cases h
  · split at h
    · cases h
    · split at h
      · cases h
      · rename_i h1 h2 h3
        cases h
        exact ⟨rfl, by omega, rfl, rfl, by simpa using h3⟩

theorem project_report_inv {rows : List Row} {top_n : Nat}
    {w : List String} {recs : List ProjRecord}
    (h : project_levels_next_7_days rows top_n = .report w recs) :
    w = selectWindow rows 7 ∧
    7 ≤ (sortedDistinctDates rows).length ∧
    recs = (sortByProjected (projRecords rows w)).take top_n ∧
    projRecords rows w ≠ [] := by
  unfold project_levels_next_7_days at h
  split at h
  · cases h
  · split at h
    · cases h
    · split at h
      · cases h
      · rename_i h1 h2 h3
        cases h
        exact ⟨rfl, by omega, rfl, by simpa using h3⟩

theorem trendChanges_pairwise_names (rows : List Row) (window : List String) :
    (trendChanges rows window).Pairwise (fun a b => strLt a.name b.name) := by
  unfold trendChanges
  rw [List.pairwise_map]
  exact playersWithFullWindow_pairwise rows window

theorem sortByDelta_pairwise (rows : List Row) (window : List String) :
    (sortByDelta (trendChanges rows window)).Pairwise
      (fun a b => a.delta ≤ b.delta ∧ (b.delta ≤ a.delta → strLt a.name b.name)) := by
  have h := @pairwise_insSort _ (fun a b => decide (a.delta ≤ b.delta))
    (fun a b => strLt a.name b.name)
    (fun x y => by
      rcases Int.le_total x.delta y.delta with h | h
      · exact Or.inl (decide_eq_true h)
      · exact Or.inr (decide_eq_true h))
    (fun x y z hxy hyz =>
      decide_eq_true (le_trans (of_decide_eq_true hxy) (of_decide_eq_true hyz)))
    (trendChanges rows window) (trendChanges_pairwise_names rows window)
  exact h.imp (fun hxy =>
    ⟨of_decide_eq_true hxy.1, fun hle => hxy.2 (decide_eq_true hle)⟩)

theorem sortByProjected_pairwise (rows : List Row) (window : List String) :
    (sortByProjected (projRecords rows window)).Pairwise
      (fun a b => a.projected ≤ b.projected) := by
  have h := @pairwise_insSort _ (fun a b => decide (a.projected ≤ b.projected))
    (fun _ _ => True)
    (fun x y => by
      rcases Int.le_total x.projected y.projected with h | h
      · exact Or.inl (decide_eq_true h)
      · exact Or.inr (decide_eq_true h))
    (fun x y z hxy hyz =>
      decide_eq_true (le_trans (of_decide_eq_true hxy) (of_decide_eq_true hyz)))
    (projRecords rows window) (List.pairwise_of_forall (fun _ _ => trivial))
  exact h.imp (fun hxy => of_decide_eq_true hxy.1)

theorem playersWithFullWindow_complete {rows : List Row} {window : List String}
    {p : String × List Int} (hp : p ∈ playersWithFullWindow rows window) :
    ∀ d ∈ window, (levelsByKey rows window (d, p.1)).isSome := by
  intro d hd
  have h2 := (mem_playersWithFullWindow.1 hp).2
  have hs : (allSome (window.map
      (fun d => levelsByKey rows window (d, p.1)))).isSome := by
    rw [h2]; rfl
  exact allSome_isSome_iff.1 hs _ (List.mem_map_of_mem _ hd)

theorem complete_mem_playersWithFullWindow {rows : List Row}
    {window : List String} {nm : String} (hw : window ≠ [])
    (h : ∀ d ∈ window, (levelsByKey rows window (d, nm)).isSome) :
    nm ∈ (playersWithFullWindow rows window).map Prod.fst := by
  obtain ⟨d0, hd0⟩ := List.exists_mem_of_ne_nil _ hw
  rcases levelsByKey_isSome_iff.1 (h d0 hd0) with ⟨e, he, hek⟩
  have hnm : nm ∈ playerNames rows window :=
    mem_playerNames.2 ⟨e, he, by rw [hek]⟩
  have hsome : (allSome (window.map
      (fun d => levelsByKey rows window (d, nm)))).isSome := by
    rw [allSome_isSome_iff]
    intro x hx
    rcases List.mem_map.1 hx with ⟨d, hd, rfl⟩
    exact h d hd
  rcases Option.isSome_iff_exists.1 hsome with ⟨lvls, hl⟩
  exact List.mem_map.2 ⟨(nm, lvls), mem_playersWithFullWindow.2 ⟨hnm, hl⟩, rfl⟩

theorem find?_append_of_forall_neg {p : α → Bool} :
    ∀ {l₁ : List α}, (∀ x ∈ l₁, ¬ p x) →
      ∀ l₂ : List α, (l₁ ++ l₂).find? p = l₂.find? p
  | [], _, l₂ => rfl
  | a :: l₁, h, l₂ => by
    rw [List.cons_append, List.find?_cons_of_neg _ (h a (List.mem_cons_self a l₁))]
    exact find?_append_of_forall_neg (fun x hx => h x (List.mem_cons_of_mem a hx)) l₂

/-! ## Claim theorems -/

/-- C1 (counterexample): in `analyze_last_n_days` over a ledger where
`A` and `B` both have delta `+5`, the `best` list is `[B, A]`: equal-delta
entities appear in REVERSE lexicographic order there, because
`best = list(reversed(changes_sorted))` reverses the stable ascending
sort wholesale. The claim that equal-delta entities appear in
lexicographic name order in the `best` list is therefore false. -/
theorem trend_tie_best_reverse_counterexample :
    analyze_last_n_days exRowsAB 2 10 =
      .report ["1", "2"] [⟨"A", 10, 15, 5⟩, ⟨"B", 20, 25, 5⟩]
        [⟨"B", 20, 25, 5⟩, ⟨"A", 10, 15, 5⟩] ∧
    ¬ (bestOf (analyze_last_n_days exRowsAB 2 10)).Pairwise
        (fun a b => a.delta = b.delta → strLe a.name b.name = true) := by
  exact ⟨by rfl, by decide⟩

/-- C1 (amended): in every trend report, the `worst` list is sorted
ascending by delta with equal-delta entities in lexicographic name
order (stable sort of the lexicographically ordered entities), while the
`best` list is sorted descending by delta with equal-delta entities in
REVERSE lexicographic name order (it is the reversal of the ascending
stable sort). -/
theorem trend_tie_order (rows : List Row) (n_days : Int) (top_n : Nat)
    (w : List String) (worst best : List TrendRecord)
    (h : analyze_last_n_days rows n_days top_n = .report w worst best) :
    worst.Pairwise (fun a b =>
      a.delta ≤ b.delta ∧ (a.delta = b.delta → strLt a.name b.name)) ∧
    best.Pairwise (fun a b =>
      b.delta ≤ a.delta ∧ (a.delta = b.delta → strLt b.name a.name)) := by
  obtain ⟨hw, _, hworst, hbest, _⟩ := analyze_report_inv h
  constructor
  · subst hworst
    exact ((sortByDelta_pairwise rows w).sublist (List.take_sublist _ _)).imp
      (fun hab => ⟨hab.1, fun heq => hab.2 (le_of_eq heq.symm)⟩)
  · subst hbest
    have hrev : (sortByDelta (trendChanges rows w)).reverse.Pairwise
        (fun a b => b.delta ≤ a.delta ∧ (a.delta ≤ b.delta → strLt b.name a.name)) :=
      List.pairwise_reverse.2 (sortByDelta_pairwise rows w)
    exact (hrev.sublist (List.take_sublist _ _)).imp
      (fun hab => ⟨hab.1, fun heq => hab.2 (le_of_eq heq)⟩)

/-- C1 (witness): the amended tie-break statement at the concrete tied
ledger. -/
theorem trend_tie_order_witness :
    analyze_last_n_days exRowsAB 2 10 =
      .report ["1", "2"] [⟨"A", 10, 15, 5⟩, ⟨"B", 20, 25, 5⟩]
        [⟨"B", 20, 25, 5⟩, ⟨"A", 10, 15, 5⟩] ∧
    ([(⟨"A", 10, 15, 5⟩ : TrendRecord), ⟨"B", 20, 25, 5⟩].Pairwise (fun a b =>
      a.delta ≤ b.delta ∧ (a.delta = b.delta → strLt a.name b.name)) ∧
    [(⟨"B", 20, 25, 5⟩ : TrendRecord), ⟨"A", 10, 15, 5⟩].Pairwise (fun a b =>
      b.delta ≤ a.delta ∧ (a.delta = b.delta → strLt b.name a.name))) :=
  ⟨by rfl, trend_tie_order exRowsAB 2 10 ["1", "2"]
    [⟨"A", 10, 15, 5⟩, ⟨"B", 20, 25, 5⟩]
    [⟨"B", 20, 25, 5⟩, ⟨"A", 10, 15, 5⟩] (by rfl)⟩

/-- C2: for every ledger and non-empty window, an entity appears in the
completeness filter's output iff it has an integer-coercible level
recorded for every window date; the output is in strictly lexicographic
name order with per-date level sequences in window order; and every
trend or projection record's entity has a level on every window date. -/
theorem completeness_filter_spec (rows : List Row) (window : List String)
    (hw : window ≠ []) (nm : String) :
    (nm ∈ (playersWithFullWindow rows window).map Prod.fst ↔
      ∀ d ∈ window, (levelsByKey rows window (d, nm)).isSome) ∧
    (∀ p ∈ playersWithFullWindow rows window,
      window.map (fun d => levelsByKey rows window (d, p.1)) = p.2.map some) ∧
    ((playersWithFullWindow rows window).map Prod.fst).Pairwise strLt ∧
    (∀ c ∈ trendChanges rows window, ∀ d ∈ window,
      (levelsByKey rows window (d, c.name)).isSome) ∧
    (∀ q ∈ projRecords rows window, ∀ d ∈ window,
      (levelsByKey rows window (d, q.name)).isSome) := by
  refine ⟨⟨?_, ?_⟩, ?_, ?_, ?_, ?_⟩
  · intro hmem
    rcases List.mem_map.1 hmem with ⟨p, hp, rfl⟩
    exact playersWithFullWindow_complete hp
  · intro hall
    exact complete_mem_playersWithFullWindow hw hall
  · intro p hp
    exact playersWithFullWindow_levels hp
  · rw [List.pairwise_map]
    exact playersWithFullWindow_pairwise rows window
  · intro c hc d hd
    rcases mem_trendChanges.1 hc with ⟨p, hp, rfl⟩
    exact playersWithFullWindow_complete hp d hd
  · intro q hq d hd
    rcases mem_projRecords.1 hq with ⟨p, hp, rfl⟩
    exact playersWithFullWindow_complete hp d hd

/-- C2 (witness): the completeness equivalence at a concrete 3-day
window where `A` is complete and `B` is missing a date. -/
theorem completeness_filter_spec_witness :
    (["1", "2", "3"] : List String) ≠ [] ∧
    ("A" ∈ (playersWithFullWindow exRows7 ["1", "2", "3"]).map Prod.fst ↔
      ∀ d ∈ (["1", "2", "3"] : List String),
        (levelsByKey exRows7 ["1", "2", "3"] (d, "A")).isSome) :=
  ⟨by decide, (completeness_filter_spec exRows7 ["1", "2", "3"] (by decide) "A").1⟩

/-- C3 (counterexample): with two recorded dates and requested size `0`,
the selected window is the WHOLE date list (`dates[-0:]` is `dates[0:]`
in Python), not the empty list the claim requires for `size ≤ 0`. -/
theorem selectWindow_zero_counterexample :
    selectWindow exRowsAB 0 = ["1", "2"] ∧
    ¬ ((0 : Int) ≤ 0 → selectWindow exRowsAB 0 = []) := by
  refine ⟨by rfl, fun hcl => ?_⟩
  exact absurd (hcl le_rfl) (by decide)

/-- C3 (amended): the selected window is always a strictly increasing
suffix of the sorted distinct-date set; for `size > 0` it has at most
`size` dates and exactly `min size (number of distinct dates)` of them,
so it is ALL dates when fewer than `size` exist; for `size ≤ 0` it is
NOT empty in general but the date list with its first `-size` entries
dropped — in particular for `size = 0` it is the whole date list. -/
theorem selectWindow_spec (rows : List Row) (size : Int) :
    selectWindow rows size <:+ sortedDistinctDates rows ∧
    (selectWindow rows size).Pairwise strLt ∧
    (0 < size → ((selectWindow rows size).length : Int) ≤ size) ∧
    (0 < size → ((selectWindow rows size).length : Int) =
      min size ((sortedDistinctDates rows).length : Int)) ∧
    (((sortedDistinctDates rows).length : Int) ≤ size →
      selectWindow rows size = sortedDistinctDates rows) ∧
    (size ≤ 0 → selectWindow rows size =
      (sortedDistinctDates rows).drop (-size).toNat) := by
  refine ⟨pySliceTail_suffix _ _, ?_,
    fun h => pySliceTail_length_le _ _ h,
    fun h => pySliceTail_length_pos _ _ h,
    fun h => pySliceTail_all_of_le _ _ h,
    fun h => pySliceTail_nonpos _ _ h⟩
  exact (sortedDistinctDates_pairwise rows).sublist (pySliceTail_suffix _ _).sublist

/-- C3 (witness): the amended window bounds at concrete sizes `2`, `5`
(short history: both dates are selected) and `-1`. -/
theorem selectWindow_spec_witness :
    (0 : Int) < 2 ∧ ((selectWindow exRowsAB 2).length : Int) ≤ 2 ∧
    (0 : Int) < 5 ∧ ((selectWindow exRowsAB 5).length : Int) =
      min 5 ((sortedDistinctDates exRowsAB).length : Int) ∧
    ((sortedDistinctDates exRowsAB).length : Int) ≤ 5 ∧
    selectWindow exRowsAB 5 = sortedDistinctDates exRowsAB ∧
    (-1 : Int) ≤ 0 ∧
    selectWindow exRowsAB (-1) = (sortedDistinctDates exRowsAB).drop 1 :=
  ⟨by decide, (selectWindow_spec exRowsAB 2).2.2.1 (by decide),
    by decide, (selectWindow_spec exRowsAB 5).2.2.2.1 (by decide),
    by decide, (selectWindow_spec exRowsAB 5).2.2.2.2.1 (by decide),
    by decide, (selectWindow_spec exRowsAB (-1)).2.2.2.2.2 (by decide)⟩

/-- C4: every record of a trend report satisfies `from` = the entity's
level at the first (oldest) window date, `to` = its level at the last
(newest) window date, and `delta = to - from`, with no monotonicity
assumption. -/
theorem trend_record_endpoints (rows : List Row) (n_days : Int) (top_n : Nat)
    (w : List String) (worst best : List TrendRecord)
    (h : analyze_last_n_days rows n_days top_n = .report w worst best)
    (c : TrendRecord) (hc : c ∈ worst ∨ c ∈ best) :
    ∃ hw : w ≠ [],
      levelsByKey rows w (w.head hw, c.name) = some c.«from» ∧
      levelsByKey rows w (w.getLast hw, c.name) = some c.«to» ∧
      c.delta = c.«to» - c.«from» := by
  obtain ⟨hweq, _, hworst, hbest, _⟩ := analyze_report_inv h
  have hcmem : c ∈ trendChanges rows w := by
    rcases hc with hc | hc
    · exact mem_insSort.1 ((List.take_sublist _ _).subset (hworst ▸ hc))
    · exact mem_insSort.1 (List.mem_reverse.1
        ((List.take_sublist _ _).subset (hbest ▸ hc)))
  rcases mem_trendChanges.1 hcmem with ⟨p, hp, rfl⟩
  have hw : w ≠ [] := playersWithFullWindow_window_ne_nil hp
  have hends := map_eq_map_some_ends (playersWithFullWindow_levels hp) hw
  exact ⟨hw, hends.1, hends.2, rfl⟩

/-- C4 (witness): the endpoint characterisation for `A`'s record in the
concrete two-date report. -/
theorem trend_record_endpoints_witness :
    analyze_last_n_days exRowsAB 2 10 =
      .report ["1", "2"] [⟨"A", 10, 15, 5⟩, ⟨"B", 20, 25, 5⟩]
        [⟨"B", 20, 25, 5⟩, ⟨"A", 10, 15, 5⟩] ∧
    ∃ hw : (["1", "2"] : List String) ≠ [],
      levelsByKey exRowsAB ["1", "2"]
        ((["1", "2"] : List String).head hw, "A") = some 10 ∧
      levelsByKey exRowsAB ["1", "2"]
        ((["1", "2"] : List String).getLast hw, "A") = some 15 ∧
      (5 : Int) = 15 - 10 :=
  ⟨by rfl, trend_record_endpoints exRowsAB 2 10 ["1", "2"]
    [⟨"A", 10, 15, 5⟩, ⟨"B", 20, 25, 5⟩]
    [⟨"B", 20, 25, 5⟩, ⟨"A", 10, 15, 5⟩] (by rfl)
    ⟨"A", 10, 15, 5⟩ (Or.inl (by decide))⟩

/-- C5: a 7-day projection report uses the trailing 7-date window; each
record satisfies `from`/`current` = the entity's levels at the window
ends, `delta = current - from` and `projected = current + delta` with no
clamping; and the list is ranked ascending by `projected` and truncated
to at most `topN` records. -/
theorem projection_report_spec (rows : List Row) (top_n : Nat)
    (w : List String) (recs : List ProjRecord)
    (h : project_levels_next_7_days rows top_n = .report w recs) :
    w = selectWindow rows 7 ∧ w.length = 7 ∧ w <:+ sortedDistinctDates rows ∧
    recs.length ≤ top_n ∧
    recs.Pairwise (fun a b => a.projected ≤ b.projected) ∧
    ∀ q ∈ recs, ∃ hw : w ≠ [],
      levelsByKey rows w (w.head hw, q.name) = some q.«from» ∧
      levelsByKey rows w (w.getLast hw, q.name) = some q.current ∧
      q.delta = q.current - q.«from» ∧ q.projected = q.current + q.delta := by
  obtain ⟨hweq, hdates, hrecs, hne⟩ := project_report_inv h
  refine ⟨hweq, ?_, ?_, ?_, ?_, ?_⟩
  · rw [hweq]
    unfold selectWindow
    exact pySliceTail_length_of_le _ 7 (by decide) (by simpa using hdates)
  · rw [hweq]
    exact pySliceTail_suffix _ _
  · subst hrecs
    exact List.length_take_le _ _
  · subst hrecs
    exact (sortByProjected_pairwise rows w).sublist (List.take_sublist _ _)
  · intro q hq
    subst hrecs
    have hqmem : q ∈ projRecords rows w :=
      mem_insSort.1 ((List.take_sublist _ _).subset hq)
    rcases mem_projRecords.1 hqmem with ⟨p, hp, rfl⟩
    have hw := playersWithFullWindow_window_ne_nil hp
    have hends := map_eq_map_some_ends (playersWithFullWindow_levels hp) hw
    exact ⟨hw, hends.1, hends.2, rfl, rfl⟩

/-- C5 (witness): the projection report over the concrete 7-date ledger
(only `A` is complete; `10 → 16` gives delta `6` and projection `22`). -/
theorem projection_report_spec_witness :
    project_levels_next_7_days exRows7 10 =
      .report ["1", "2", "3", "4", "5", "6", "7"] [⟨"A", 10, 16, 6, 22⟩] ∧
    (["1", "2", "3", "4", "5", "6", "7"] = selectWindow exRows7 7 ∧
    (["1", "2", "3", "4", "5", "6", "7"] : List String).length = 7 ∧
    ["1", "2", "3", "4", "5", "6", "7"] <:+ sortedDistinctDates exRows7 ∧
    [(⟨"A", 10, 16, 6, 22⟩ : ProjRecord)].length ≤ 10 ∧
    [(⟨"A", 10, 16, 6, 22⟩ : ProjRecord)].Pairwise
      (fun a b => a.projected ≤ b.projected) ∧
    ∀ q ∈ [(⟨"A", 10, 16, 6, 22⟩ : ProjRecord)],
      ∃ hw : (["1", "2", "3", "4", "5", "6", "7"] : List String) ≠ [],
        levelsByKey exRows7 ["1", "2", "3", "4", "5", "6", "7"]
          ((["1", "2", "3", "4", "5", "6", "7"] : List String).head hw, q.name) =
            some q.«from» ∧
        levelsByKey exRows7 ["1", "2", "3", "4", "5", "6", "7"]
          ((["1", "2", "3", "4", "5", "6", "7"] : List String).getLast hw, q.name) =
            some q.current ∧
        q.delta = q.current - q.«from» ∧ q.projected = q.current + q.delta) :=
  ⟨by rfl, projection_report_spec exRows7 10 ["1", "2", "3", "4", "5", "6", "7"]
    [⟨"A", 10, 16, 6, 22⟩] (by rfl)⟩

/-- C6: with fewer than 2 distinct dates the trend analysis reports the
insufficient-history advisory (for a non-empty ledger) and never
produces a report; with fewer than 7 distinct dates the projection does
likewise. Both functions are total, so no error is raised. -/
theorem insufficient_history_advisory (rows : List Row) (n_days : Int)
    (top_n : Nat) :
    ((sortedDistinctDates rows).length < 2 →
      (rows ≠ [] → analyze_last_n_days rows n_days top_n = .insufficientHistory) ∧
      ∀ w worst best, analyze_last_n_days rows n_days top_n ≠ .report w worst best) ∧
    ((sortedDistinctDates rows).length < 7 →
      (rows ≠ [] → project_levels_next_7_days rows top_n = .insufficientHistory) ∧
      ∀ w recs, project_levels_next_7_days rows top_n ≠ .report w recs) := by
  constructor
  · intro hlt
    constructor
    · intro hne
      unfold analyze_last_n_days
      rw [if_neg (by simpa using hne), if_pos hlt]
    · intro w worst best hcontra
      obtain ⟨_, h2, _⟩ := analyze_report_inv hcontra
      omega
  · intro hlt
    constructor
    · intro hne
      unfold project_levels_next_7_days
      rw [if_neg (by simpa using hne), if_pos hlt]
    · intro w recs hcontra
      obtain ⟨_, h2, _⟩ := project_report_inv hcontra
      omega

/-- C6 (witness): the advisories at a one-date ledger (trend) and a
two-date ledger (projection). -/
theorem insufficient_history_advisory_witness :
    (sortedDistinctDates exRowsOne).length < 2 ∧ exRowsOne ≠ [] ∧
    analyze_last_n_days exRowsOne 3 10 = .insufficientHistory ∧
    (sortedDistinctDates exRowsAB).length < 7 ∧ exRowsAB ≠ [] ∧
    project_levels_next_7_days exRowsAB 10 = .insufficientHistory :=
  ⟨by decide, by decide,
    ((insufficient_history_advisory exRowsOne 3 10).1 (by decide)).1 (by decide),
    by decide, by decide,
    ((insufficient_history_advisory exRowsAB 3 10).2 (by decide)).1 (by decide)⟩

/-- C7: when the acquisition subprocess exits cleanly but its output is
not parseable JSON, `fetch_levels` raises a `ValueError` whose message
carries the raw output text, the driver reports it and terminates the
run, and the ledger state is unchanged — in particular an absent ledger
file is not created. -/
theorem malformed_acquisition_spec (ledger : Option (List Row))
    (today stdout stderr : String) :
    fetch_levels true 0 stdout stderr none =
      .error (.valueError
        ("Kunne ikke parse JSON fra Rust-programmet:\nOutput var:\n" ++ stdout)) ∧
    pymain ledger today (fetch_levels true 0 stdout stderr none) = (ledger, true) ∧
    pymain none today (fetch_levels true 0 stdout stderr none) = (none, true) :=
  ⟨rfl, rfl, rfl⟩

/-- C8: appending a non-empty observation list grows the ledger read
back by `readAll` by exactly one row per observation, each tagged with
the append date; appending an empty list leaves the ledger state
untouched; and reading an absent ledger yields `[]` rather than an
error. -/
theorem append_readAll_spec (ledger : Option (List Row)) (today : String)
    (levels : List Obs) :
    (levels ≠ [] →
      readAll (append_today ledger today levels) =
        readAll ledger ++ levels.map (obsRow today) ∧
      (readAll (append_today ledger today levels)).length =
        (readAll ledger).length + levels.length ∧
      (∀ r ∈ levels.map (obsRow today), r.date = some today)) ∧
    (levels = [] → append_today ledger today levels = ledger) ∧
    readAll none = ([] : List Row) := by
  refine ⟨?_, ?_, rfl⟩
  · intro hne
    have h1 : append_today ledger today levels =
        some (readAll ledger ++ levels.map (obsRow today)) := by
      unfold append_today readAll
      rw [if_neg (by simpa using hne)]
    refine ⟨by rw [h1]; rfl, ?_, ?_⟩
    · rw [h1]
      show (readAll ledger ++ levels.map (obsRow today)).length = _
      rw [List.length_append, List.length_map]
    · intro r hr
      rcases List.mem_map.1 hr with ⟨m, _, rfl⟩
      rfl
  · intro he
    subst he
    rfl

/-- C8 (witness): appending one observation to a one-row ledger. -/
theorem append_readAll_spec_witness :
    ([⟨"A", 11⟩] : List Obs) ≠ [] ∧
    readAll (append_today (some exRowsOne) "2" [⟨"A", 11⟩]) =
      readAll (some exRowsOne) ++ ([⟨"A", 11⟩] : List Obs).map (obsRow "2") ∧
    (readAll (append_today (some exRowsOne) "2" [⟨"A", 11⟩])).length =
      (readAll (some exRowsOne)).length + ([⟨"A", 11⟩] : List Obs).length ∧
    (∀ r ∈ ([⟨"A", 11⟩] : List Obs).map (obsRow "2"), r.date = some "2") :=
  ⟨by decide, (append_readAll_spec (some exRowsOne) "2" [⟨"A", 11⟩]).1 (by decide)⟩

/-- C9: when a ledger contains several observations for the same
`(date, name)` key, the analysis lookup maps that key to the level of
the last-appended such observation (the later dict write wins). -/
theorem levelsByKey_last_wins (pre suf : List Row) (r : Row)
    (window : List String) (k : String × String) (v : Int)
    (hr : rowEntry window r = some (k, v))
    (hsuf : ∀ e ∈ keyEntries suf window, e.1 ≠ k) :
    levelsByKey (pre ++ r :: suf) window k = some v := by
  unfold levelsByKey
  have hk : keyEntries (pre ++ r :: suf) window =
      keyEntries pre window ++ (k, v) :: keyEntries suf window := by
    unfold keyEntries
    rw [List.filterMap_append, List.filterMap_cons, hr]
  rw [hk, List.reverse_append, List.reverse_cons, List.append_assoc,
    find?_append_of_forall_neg ?hpre]
  case hpre =>
    intro e he
    rw [List.mem_reverse] at he
    simp only [decide_eq_true_eq]
    exact hsuf e he
  rw [List.cons_append, List.find?_cons_of_pos _ (by simp)]
  rfl

/-- C9 (witness): a duplicate `(date, name)` pair where the later row's
level `12` wins over the earlier `10`. -/
theorem levelsByKey_last_wins_witness :
    rowEntry ["1"] ⟨some "1", some "A", some "12"⟩ = some (("1", "A"), 12) ∧
    (∀ e ∈ keyEntries [(⟨some "1", some "B", some "20"⟩ : Row)] ["1"],
      e.1 ≠ ("1", "A")) ∧
    levelsByKey ([⟨some "1", some "A", some "10"⟩] ++
        (⟨some "1", some "A", some "12"⟩ : Row) ::
        [⟨some "1", some "B", some "20"⟩]) ["1"] ("1", "A") = some 12 :=
  ⟨by rfl, by decide,
    levelsByKey_last_wins [⟨some "1", some "A", some "10"⟩]
      [⟨some "1", some "B", some "20"⟩] ⟨some "1", some "A", some "12"⟩
      ["1"] ("1", "A") 12 (by rfl) (by decide)⟩

/-- C10: a row's date enters the distinct-date set iff it is present and
non-empty; an empty name is never a key of the analysis lookup, so no
trend or projection record carries an empty name; yet `readAll` still
returns every row, so such rows count toward ledger size. -/
theorem falsy_fields_excluded (rows : List Row) (window : List String)
    (d : String) :
    (d ∈ sortedDistinctDates rows ↔ (∃ r ∈ rows, r.date = some d) ∧ d ≠ "") ∧
    levelsByKey rows window (d, "") = none ∧
    (∀ c ∈ trendChanges rows window, c.name ≠ "") ∧
    (∀ q ∈ projRecords rows window, q.name ≠ "") ∧
    readAll (some rows) = rows := by
  refine ⟨mem_sortedDistinctDates, ?_, ?_, ?_, rfl⟩
  · unfold levelsByKey
    rw [List.find?_eq_none.2 ?hnone]
    · rfl
    case hnone =>
      intro e he
      rw [List.mem_reverse] at he
      simp only [decide_eq_true_eq]
      intro hk
      exact (keyEntries_mem_inv he).2 (by rw [hk])
  · intro c hc
    rcases mem_trendChanges.1 hc with ⟨p, hp, rfl⟩
    rcases mem_playerNames.1 (mem_playersWithFullWindow.1 hp).1 with ⟨e, he, hnm⟩
    exact hnm ▸ (keyEntries_mem_inv he).2
  · intro q hq
    rcases mem_projRecords.1 hq with ⟨p, hp, rfl⟩
    rcases mem_playerNames.1 (mem_playersWithFullWindow.1 hp).1 with ⟨e, he, hnm⟩
    exact hnm ▸ (keyEntries_mem_inv he).2

/-- C10 (witness): at the concrete 7-date ledger (which has an empty-name
row and an empty-date row), date `"1"` is in the date set, the
empty-name key resolves to nothing, and `A`'s 3-day trend record has a
non-empty name. -/
theorem falsy_fields_excluded_witness :
    ("1" ∈ sortedDistinctDates exRows7 ↔
      (∃ r ∈ exRows7, r.date = some "1") ∧ "1" ≠ "") ∧
    levelsByKey exRows7 ["1", "2", "3"] ("1", "") = none ∧
    ((⟨"A", 10, 12, 2⟩ : TrendRecord) ∈ trendChanges exRows7 ["1", "2", "3"] ∧
      (⟨"A", 10, 12, 2⟩ : TrendRecord).name ≠ "") :=
  ⟨(falsy_fields_excluded exRows7 ["1", "2", "3"] "1").1,
    (falsy_fields_excluded exRows7 ["1", "2", "3"] "1").2.1,
    by decide,
    (falsy_fields_excluded exRows7 ["1", "2", "3"] "1").2.2.1 _ (by decide)⟩
